import Mathlib

/-!
Shallow embedding of the greedy maximum-clique programs of this repository
(`dataset_taskflow_greedy.cc`, `dataset_taskflow_greedy_weight_neighborhood.cc`,
`max_clique_random_neighborhood.cc`, `compare_greedy_mel.cc`).

Vertices are C++ `int` values, modelled as unbounded integers.  The adjacency
list `std::vector<std::unordered_set<int>>` of a graph with `num_vertices_ = N`
is modelled as a total function from vertex id to a finite set of neighbours;
every constructor of the programs leaves the entries outside `[0, N)` empty,
and no claim reads an out-of-range entry of a graph whose entry is non-empty.
-/

/-- The `Graph` class shared by the program variants: a vertex count and the
adjacency list. -/
structure Graph where
  num_vertices : Int
  adj : Int → Finset Int

/-- `Graph::Graph(int vertices)`: `adj_list_(vertices)` value-initialises every
neighbour set to the empty set. -/
def Graph.empty (vertices : Int) : Graph :=
  ⟨vertices, fun _ => ∅⟩

/-- `Graph::get_num_vertices`. -/
def Graph.get_num_vertices (g : Graph) : Int :=
  g.num_vertices

/-- `Graph::add_edge` of `dataset_taskflow_greedy.cc`,
`dataset_taskflow_greedy_weight_neighborhood.cc` and
`max_clique_random_neighborhood.cc`: inserts `v` into `adj_list_[u]` and `u`
into `adj_list_[v]`, but only when both endpoints pass the range check
`u >= 0 && u < num_vertices_ && v >= 0 && v < num_vertices_`. -/
def Graph.add_edge (g : Graph) (u v : Int) : Graph :=
  if 0 ≤ u ∧ u < g.num_vertices ∧ 0 ≤ v ∧ v < g.num_vertices then
    { g with adj := fun w =>
        if w = u then insert v (g.adj u)
        else if w = v then insert u (g.adj v)
        else g.adj w }
  else g

/-- `Graph::add_edge` of `compare_greedy_mel.cc`: the same double insertion
with no range check. -/
def Graph.add_edge_mel (g : Graph) (u v : Int) : Graph :=
  { g with adj := fun w =>
      if w = u then insert v (g.adj u)
      else if w = v then insert u (g.adj v)
      else g.adj w }

/-- `Graph::is_adjacent`: `adj_list_[u].count(v)` read as a boolean. -/
def Graph.is_adjacent (g : Graph) (u v : Int) : Bool :=
  decide (v ∈ g.adj u)

/-- `Graph::get_degree` of the weight/neighborhood variants:
`(u >= 0 && u < num_vertices_) ? adj_list_[u].size() : 0`. -/
def Graph.get_degree (g : Graph) (u : Int) : Int :=
  if 0 ≤ u ∧ u < g.num_vertices then ((g.adj u).card : Int) else 0

/-- `Graph::get_neighbors`: returns `{}` when `u < 0 || u >= num_vertices_`,
otherwise copies `adj_list_[u]` into a vector.  The iteration order of
`std::unordered_set` is unspecified; the model lists the set in ascending
order (every claim about `get_neighbors` concerns only membership). -/
def Graph.get_neighbors (g : Graph) (u : Int) : List Int :=
  if u < 0 ∨ g.num_vertices ≤ u then []
  else (g.adj u).sort (· ≤ ·)

/-- Comparison used on the `{-degree, id}` pairs of
`get_vertices_sorted_by_degree`: lexicographic `operator<=` of `std::pair`. -/
def degKeyLe : Int × Int → Int × Int → Prop :=
  fun a b => a.1 < b.1 ∨ (a.1 = b.1 ∧ a.2 ≤ b.2)

instance degKeyLe.instDecRel : DecidableRel degKeyLe :=
  fun a b => by unfold degKeyLe; infer_instance

instance degKeyLe.instTrans : IsTrans (Int × Int) degKeyLe := by
  constructor
  intro a b c hab hbc
  rcases hab with h1 | ⟨h1, h2⟩ <;> rcases hbc with h3 | ⟨h3, h4⟩ <;>
    unfold degKeyLe <;> first
    | exact Or.inl (by omega)
    | exact Or.inr (by omega)

instance degKeyLe.instTotal : IsTotal (Int × Int) degKeyLe := by
  constructor
  intro a b
  unfold degKeyLe
  rcases lt_trichotomy a.1 b.1 with h | h | h
  · exact Or.inl (Or.inl h)
  · rcases le_total a.2 b.2 with h2 | h2
    · exact Or.inl (Or.inr ⟨h, h2⟩)
    · exact Or.inr (Or.inr ⟨h.symm, h2⟩)
  · exact Or.inr (Or.inl h)

/-- The vector `degrees` of `get_vertices_sorted_by_degree`: the pair
`{-(int)adj_list_[i].size(), i}` for `i = 0 .. num_vertices_ - 1`. -/
def Graph.degree_key_list (g : Graph) : List (Int × Int) :=
  (List.range g.num_vertices.toNat).map
    (fun i : Nat => (-(((g.adj (i : Int)).card : Int)), (i : Int)))

/-- `Graph::get_vertices_sorted_by_degree`: sort the `{-degree, id}` pairs and
project the ids.  `std::sort` with `std::pair::operator<` is modelled by a
sort into lexicographically non-decreasing order; because the second
components are pairwise distinct the sorted arrangement is unique, so the
choice of sorting algorithm does not matter. -/
def Graph.get_vertices_sorted_by_degree (g : Graph) : List Int :=
  (List.insertionSort degKeyLe g.degree_key_list).map Prod.snd

/-- Body of the loop of `find_greedy_max_clique`: append `u` to the clique iff
`u` is adjacent to every current member (`can_add`). -/
def greedy_step (g : Graph) (clique : List Int) (u : Int) : List Int :=
  if clique.all (fun v => g.is_adjacent u v) then clique ++ [u] else clique

/-- `Graph::find_greedy_max_clique(vertex_order)`: a single left-to-right scan
of the ordering starting from the empty clique. -/
def Graph.find_greedy_max_clique (g : Graph) (vertex_order : List Int) : List Int :=
  vertex_order.foldl (greedy_step g) []

/-- The best-clique update performed under the mutex in every variant:
`if (current_clique.size() > best_clique.size()) best_clique = current`. -/
def offer (best current : List Int) : List Int :=
  if best.length < current.length then current else best

/-- Folding the offers of a completed set of trials, in completion order,
into the initially empty `best_clique`. -/
def run_offers (trials : List (List Int)) : List Int :=
  trials.foldl offer []

/-- The NeighborhoodRestricted trial body
(`dataset_taskflow_greedy_weight_neighborhood.cc` lines 140-174 and
`max_clique_random_neighborhood.cc` lines 151-174): run the greedy extension
over a search order drawn from `get_neighbors(seed)` and then
`local_clique.push_back(seed_vertex)`.  The weighted-noise (resp. degree)
sort only permutes the neighbour list, so the search order is taken as a
parameter constrained to be a permutation of `get_neighbors(seed)`. -/
def neighborhood_trial (g : Graph) (seed_vertex : Int) (search_order : List Int) : List Int :=
  g.find_greedy_max_clique search_order ++ [seed_vertex]

/-- The 1-based-to-0-based conversion of the DIMACS loaders:
`if (u > 0) u--;`. -/
def dec1 (u : Int) : Int :=
  if u > 0 then u - 1 else u

/-- One line of a DIMACS file, abstracted to the branch the loaders take:
an empty or `c` line; a `p` line with the vertex count its header parse
extracts (`0` when extraction fails); an `e u v` line; a bare `u v` line; or
any other line, on which the two-integer extraction fails. -/
inductive DimacsLine where
  | com : DimacsLine
  | header (nv : Int) : DimacsLine
  | eline (u v : Int) : DimacsLine
  | pairline (u v : Int) : DimacsLine
  | junk : DimacsLine
deriving DecidableEq

/-- The header scan loop of the loaders: skip every line until the first `p`
line, returning the vertex count it carries and the remaining lines (`0` and
no remaining lines when the file has no `p` line). -/
def find_header : List DimacsLine → Int × List DimacsLine
  | [] => (0, [])
  | (DimacsLine.header nv) :: rest => (nv, rest)
  | _ :: rest => find_header rest

/-- The edge-reading loop of the loaders: comments are skipped, `e u v` and
bare `u v` lines are decremented and passed to `add_edge`, and a line on
which integer extraction fails (including a stray `p` line, whose first token
is not an integer) is skipped. -/
def process_edges (g : Graph) : List DimacsLine → Graph
  | [] => g
  | DimacsLine.com :: rest => process_edges g rest
  | DimacsLine.header _ :: rest => process_edges g rest
  | DimacsLine.eline u v :: rest => process_edges (g.add_edge (dec1 u) (dec1 v)) rest
  | DimacsLine.pairline u v :: rest => process_edges (g.add_edge (dec1 u) (dec1 v)) rest
  | DimacsLine.junk :: rest => process_edges g rest

/-- Diagnostic printed by `load_dimacs_graph` of `dataset_taskflow_greedy.cc`
before `exit(1)`. -/
def invalidHeaderMsg : String :=
  "Error: Invalid DIMACS format (header p edge V E not found)."

/-- `load_dimacs_graph` of `dataset_taskflow_greedy.cc` (and, with the shorter
message "Error: Invalid DIMACS format.", of `dataset_compare_greedy.cc`,
`dataset_taskflow_greedy_weight.cc` and
`dataset_taskflow_greedy_weight_repeat.cc`): after the header scan,
`num_vertices == 0` prints a diagnostic on stderr and is fatal (`exit(1)`,
modelled as `Except.error` carrying the diagnostic); otherwise the edge
lines are read into `Graph(num_vertices)`. -/
def load_dimacs_graph (file : List DimacsLine) : Except String Graph :=
  let h := find_header file
  if h.1 = 0 then Except.error invalidHeaderMsg
  else Except.ok (process_edges (Graph.empty h.1) h.2)

/-- `load_dimacs_graph` of `max_clique_random_neighborhood.cc`,
`max_clique_neighborhood_parallel.cc` and `dataset_taskflow_greedy_repeat.cc`:
the same scan, but the header check is a bare `if (num_vertices == 0)
exit(1);` that prints nothing — modelled as an error value carrying no
diagnostic. -/
def load_dimacs_graph_rn (file : List DimacsLine) : Except Unit Graph :=
  let h := find_header file
  if h.1 = 0 then Except.error ()
  else Except.ok (process_edges (Graph.empty h.1) h.2)

/-- `load_dimacs_graph` of `dataset_taskflow_greedy_weight_neighborhood.cc`:
the same scan with no check at all on the parsed vertex count — the graph is
built and returned unconditionally. -/
def load_dimacs_graph_wn (file : List DimacsLine) : Graph :=
  let h := find_header file
  process_edges (Graph.empty h.1) h.2

/-- `create_random_graph` of `compare_greedy_mel.cc`: for every pair
`i < j` of vertices, add the edge iff the uniform draw falls below the edge
probability.  The draws are abstracted into the boolean `coin i j` consumed
for the pair `(i, j)`; the unchecked `add_edge` of that file is the one
called. -/
def create_random_graph (num_vertices : Nat) (coin : Nat → Nat → Bool) : Graph :=
  (List.range num_vertices).foldl
    (fun g i =>
      (List.range' (i + 1) (num_vertices - (i + 1))).foldl
        (fun g2 j => if coin i j then g2.add_edge_mel (i : Int) (j : Int) else g2)
        g)
    (Graph.empty (num_vertices : Int))

/-- A graph built by a sequence of (range-checked) `add_edge` calls on a fresh
`Graph(n)`, the way `main` and the loaders build every graph. -/
def buildGraph (n : Int) (edges : List (Int × Int)) : Graph :=
  edges.foldl (fun g e => g.add_edge e.1 e.2) (Graph.empty n)

/-- Scenario A of the spec: vertices `{0,1,2,3}`, edges
`{0-1, 0-2, 1-2, 2-3}`. -/
def scenarioA : Graph :=
  buildGraph 4 [(0, 1), (0, 2), (1, 2), (2, 3)]

/-- A two-vertex graph with the single edge `0-1`, used as a concrete probe
for the out-of-range behaviour of the accessors. -/
def twoPath : Graph :=
  buildGraph 2 [(0, 1)]

/-- The pairwise-adjacency invariant of the spec: every two distinct members
of the collection are adjacent. -/
def Graph.PairwiseAdjacent (g : Graph) (c : List Int) : Prop :=
  ∀ u ∈ c, ∀ v ∈ c, u ≠ v → g.is_adjacent u v = true

/-- Symmetry invariant of the data model: `is_adjacent` is a symmetric
relation. -/
def Graph.Symm (g : Graph) : Prop :=
  ∀ u v, g.is_adjacent u v = g.is_adjacent v u

/-- No-self-loop invariant of the data model. -/
def Graph.Irrefl (g : Graph) : Prop :=
  ∀ u, g.is_adjacent u u = false


/-! Helper lemmas on the greedy scan -/

lemma greedy_step_of_all_true {g : Graph} {c : List Int} {u : Int}
    (h : c.all (fun v => g.is_adjacent u v) = true) :
    greedy_step g c u = c ++ [u] := by
  unfold greedy_step
  rw [h]
  simp

lemma greedy_step_of_all_false {g : Graph} {c : List Int} {u : Int}
    (h : c.all (fun v => g.is_adjacent u v) = false) :
    greedy_step g c u = c := by
  unfold greedy_step
  rw [h]
  simp

/-- The scan only appends: the clique after processing `order` from state `c`
is `c` followed by a sublist of `order`. -/
lemma foldl_greedy_step_eq_append (g : Graph) :
    ∀ (order c : List Int),
      ∃ t, List.foldl (greedy_step g) c order = c ++ t ∧ t.Sublist order := by
  intro order
  induction order with
  | nil => intro c; exact ⟨[], by simp⟩
  | cons w ws ih =>
    intro c
    simp only [List.foldl_cons]
    cases hb : c.all (fun v => g.is_adjacent w v) with
    | true =>
      rw [greedy_step_of_all_true hb]
      obtain ⟨t, ht, hsub⟩ := ih (c ++ [w])
      exact ⟨w :: t, by simpa [List.append_assoc] using ht, List.Sublist.cons₂ w hsub⟩
    | false =>
      rw [greedy_step_of_all_false hb]
      obtain ⟨t, ht, hsub⟩ := ih c
      exact ⟨t, ht, List.Sublist.cons w hsub⟩

/-- Pairwise adjacency is an invariant of the scan when the graph is
symmetric. -/
lemma pairwiseAdjacent_foldl (g : Graph) (hsym : g.Symm) :
    ∀ (order c : List Int), g.PairwiseAdjacent c →
      g.PairwiseAdjacent (List.foldl (greedy_step g) c order) := by
  intro order
  induction order with
  | nil => intro c hc; simpa using hc
  | cons w ws ih =>
    intro c hc
    simp only [List.foldl_cons]
    apply ih
    cases hb : c.all (fun v => g.is_adjacent w v) with
    | false => rw [greedy_step_of_all_false hb]; exact hc
    | true =>
      rw [greedy_step_of_all_true hb]
      intro u hu v hv hne
      rcases List.mem_append.mp hu with hu1 | hu1
      · rcases List.mem_append.mp hv with hv1 | hv1
        · exact hc u hu1 v hv1 hne
        · have hvw : v = w := by simpa using hv1
          have hwu := List.all_eq_true.mp hb u hu1
          rw [hsym u v, hvw]
          simpa using hwu
      · have huw : u = w := by simpa using hu1
        rcases List.mem_append.mp hv with hv1 | hv1
        · have hv2 := List.all_eq_true.mp hb v hv1
          rw [huw]
          simpa using hv2
        · have hvw : v = w := by simpa using hv1
          exact absurd (huw.trans hvw.symm) hne

/-- A vertex of the ordering that is missing from the scan's final clique was
rejected against a member of that clique. -/
lemma greedy_maximal_aux (g : Graph) :
    ∀ (order c : List Int) (u : Int), u ∈ order →
      u ∉ List.foldl (greedy_step g) c order →
      ∃ v ∈ List.foldl (greedy_step g) c order, g.is_adjacent u v = false := by
  intro order
  induction order with
  | nil => intro c u hu; simp at hu
  | cons w ws ih =>
    intro c u hu hnot
    simp only [List.foldl_cons] at hnot ⊢
    rcases List.mem_cons.mp hu with rfl | hu2
    · cases hb : c.all (fun v => g.is_adjacent u v) with
      | true =>
        exfalso
        apply hnot
        obtain ⟨t, ht, _⟩ := foldl_greedy_step_eq_append g ws (greedy_step g c u)
        rw [ht, greedy_step_of_all_true hb]
        apply List.mem_append_left
        simp
      | false =>
        obtain ⟨v, hv, hadj⟩ := List.all_eq_false.mp hb
        obtain ⟨t, ht, _⟩ := foldl_greedy_step_eq_append g ws (greedy_step g c u)
        refine ⟨v, ?_, ?_⟩
        · rw [ht, greedy_step_of_all_false hb]
          exact List.mem_append_left _ hv
        · simpa using hadj
    · exact ih (greedy_step g c w) u hu2 hnot

/-- The empty clique is pairwise adjacent. -/
lemma pairwiseAdjacent_nil (g : Graph) : g.PairwiseAdjacent [] := by
  intro u hu
  simp at hu

/-! Helper lemmas on symmetry and irreflexivity -/

/-- Membership in the adjacency entry touched by the unchecked edge
insertion. -/
lemma mem_add_edge_mel_adj (g : Graph) (u v w x : Int) :
    x ∈ (g.add_edge_mel u v).adj w ↔
      x ∈ g.adj w ∨ (w = u ∧ x = v) ∨ (w = v ∧ x = u) := by
  simp only [Graph.add_edge_mel]
  split_ifs with h1 h2
  · rw [h1]
    simp only [Finset.mem_insert, true_and, eq_self_iff_true]
    constructor
    · rintro (rfl | hx)
      · exact Or.inr (Or.inl rfl)
      · exact Or.inl hx
    · rintro (hx | rfl | ⟨h4, rfl⟩)
      · exact Or.inr hx
      · exact Or.inl rfl
      · exact Or.inl h4
  · rw [h2]
    simp only [Finset.mem_insert, true_and, eq_self_iff_true]
    constructor
    · rintro (rfl | hx)
      · exact Or.inr (Or.inr rfl)
      · exact Or.inl hx
    · rintro (hx | ⟨h4, rfl⟩ | rfl)
      · exact Or.inr hx
      · exact Or.inl h4
      · exact Or.inl rfl
  · constructor
    · exact Or.inl
    · rintro (hx | ⟨h3, -⟩ | ⟨h3, -⟩)
      · exact hx
      · exact absurd h3 h1
      · exact absurd h3 h2

/-- The range-checked `add_edge` is the unchecked one guarded by the range
condition. -/
lemma add_edge_eq_ite (g : Graph) (u v : Int) :
    g.add_edge u v =
      if 0 ≤ u ∧ u < g.num_vertices ∧ 0 ≤ v ∧ v < g.num_vertices then
        g.add_edge_mel u v
      else g := rfl

/-- Symmetry restated as a membership property. -/
lemma symm_iff_mem (g : Graph) :
    g.Symm ↔ ∀ u v, v ∈ g.adj u ↔ u ∈ g.adj v := by
  unfold Graph.Symm Graph.is_adjacent
  constructor
  · intro h u v
    exact decide_eq_decide.mp (h u v)
  · intro h u v
    exact decide_eq_decide.mpr (h u v)

lemma symm_add_edge_mel {g : Graph} (h : g.Symm) (u v : Int) :
    (g.add_edge_mel u v).Symm := by
  rw [symm_iff_mem] at h ⊢
  intro a b
  rw [mem_add_edge_mel_adj, mem_add_edge_mel_adj]
  have := h a b
  tauto

lemma symm_add_edge {g : Graph} (h : g.Symm) (u v : Int) :
    (g.add_edge u v).Symm := by
  rw [add_edge_eq_ite]
  split
  · exact symm_add_edge_mel h u v
  · exact h

/-- Irreflexivity restated as a membership property. -/
lemma irrefl_iff_mem (g : Graph) :
    g.Irrefl ↔ ∀ u, u ∉ g.adj u := by
  unfold Graph.Irrefl Graph.is_adjacent
  constructor
  · intro h u
    simpa using h u
  · intro h u
    simpa using h u

lemma irrefl_add_edge_mel {g : Graph} (h : g.Irrefl) {u v : Int}
    (hne : u ≠ v) : (g.add_edge_mel u v).Irrefl := by
  rw [irrefl_iff_mem] at h ⊢
  intro a
  rw [mem_add_edge_mel_adj]
  push_neg
  refine ⟨h a, fun h1 h2 => hne (h1 ▸ h2 ▸ rfl), fun h1 h2 => hne (h2 ▸ h1 ▸ rfl)⟩

lemma irrefl_add_edge {g : Graph} (h : g.Irrefl) {u v : Int}
    (hne : u ≠ v) : (g.add_edge u v).Irrefl := by
  rw [add_edge_eq_ite]
  split
  · exact irrefl_add_edge_mel h hne
  · exact h

lemma empty_symm (n : Int) : (Graph.empty n).Symm := by
  intro u v
  simp [Graph.is_adjacent, Graph.empty]

lemma empty_irrefl (n : Int) : (Graph.empty n).Irrefl := by
  intro u
  simp [Graph.is_adjacent, Graph.empty]

lemma foldl_add_edge_symm :
    ∀ (es : List (Int × Int)) (g : Graph), g.Symm →
      (es.foldl (fun g e => g.add_edge e.1 e.2) g).Symm := by
  intro es
  induction es with
  | nil => intro g h; simpa using h
  | cons e es ih =>
    intro g h
    simp only [List.foldl_cons]
    exact ih _ (symm_add_edge h e.1 e.2)

lemma buildGraph_symm (n : Int) (es : List (Int × Int)) : (buildGraph n es).Symm :=
  foldl_add_edge_symm es (Graph.empty n) (empty_symm n)

/-! Helper lemmas on the loaders and the generator -/

/-- A data line that cannot make `add_edge` insert a self-loop: for an edge
line, the two endpoints differ after the 1-based-to-0-based conversion. -/
def selfLoopFree : DimacsLine → Bool
  | DimacsLine.eline u v => decide (dec1 u ≠ dec1 v)
  | DimacsLine.pairline u v => decide (dec1 u ≠ dec1 v)
  | _ => true

lemma process_edges_symm :
    ∀ (lines : List DimacsLine) (g : Graph), g.Symm →
      (process_edges g lines).Symm := by
  intro lines
  induction lines with
  | nil => intro g h; simpa [process_edges] using h
  | cons l rest ih =>
    intro g h
    cases l with
    | com => exact ih g h
    | header nv => exact ih g h
    | junk => exact ih g h
    | eline u v => exact ih _ (symm_add_edge h (dec1 u) (dec1 v))
    | pairline u v => exact ih _ (symm_add_edge h (dec1 u) (dec1 v))

lemma process_edges_irrefl :
    ∀ (lines : List DimacsLine) (g : Graph), g.Irrefl →
      (∀ l ∈ lines, selfLoopFree l = true) →
      (process_edges g lines).Irrefl := by
  intro lines
  induction lines with
  | nil => intro g h _; simpa [process_edges] using h
  | cons l rest ih =>
    intro g h hfree
    have hrest : ∀ l2 ∈ rest, selfLoopFree l2 = true :=
      fun l2 hl2 => hfree l2 (List.mem_cons_of_mem l hl2)
    cases l with
    | com => exact ih g h hrest
    | header nv => exact ih g h hrest
    | junk => exact ih g h hrest
    | eline u v =>
      have hne : dec1 u ≠ dec1 v := by
        have := hfree (DimacsLine.eline u v) (List.mem_cons_self _ _)
        simpa [selfLoopFree] using this
      exact ih _ (irrefl_add_edge h hne) hrest
    | pairline u v =>
      have hne : dec1 u ≠ dec1 v := by
        have := hfree (DimacsLine.pairline u v) (List.mem_cons_self _ _)
        simpa [selfLoopFree] using this
      exact ih _ (irrefl_add_edge h hne) hrest

/-- Whether a line is a `p` header line. -/
def DimacsLine.isHdr : DimacsLine → Bool
  | DimacsLine.header _ => true
  | _ => false

/-- On a file with no `p` line, the header scan consumes everything and
reports a vertex count of `0`. -/
lemma find_header_of_no_header :
    ∀ (file : List DimacsLine), (∀ l ∈ file, l.isHdr = false) →
      find_header file = (0, []) := by
  intro file
  induction file with
  | nil => intro _; rfl
  | cons l rest ih =>
    intro h
    have hrest : ∀ l2 ∈ rest, l2.isHdr = false :=
      fun l2 hl2 => h l2 (List.mem_cons_of_mem l hl2)
    cases l with
    | com => simpa [find_header] using ih hrest
    | junk => simpa [find_header] using ih hrest
    | eline u v => simpa [find_header] using ih hrest
    | pairline u v => simpa [find_header] using ih hrest
    | header nv =>
      have := h (DimacsLine.header nv) (List.mem_cons_self _ _)
      simp [DimacsLine.isHdr] at this

/-- Symmetry and irreflexivity of the inner generator loop over `j`. -/
lemma gen_inner_symm (coin : Nat → Nat → Bool) (i : Nat) :
    ∀ (js : List Nat) (g : Graph), g.Symm →
      (js.foldl (fun g2 j => if coin i j then g2.add_edge_mel (i : Int) (j : Int) else g2) g).Symm := by
  intro js
  induction js with
  | nil => intro g h; simpa using h
  | cons j js ih =>
    intro g h
    simp only [List.foldl_cons]
    apply ih
    split
    · exact symm_add_edge_mel h (i : Int) (j : Int)
    · exact h

lemma gen_inner_irrefl (coin : Nat → Nat → Bool) (i : Nat) :
    ∀ (js : List Nat) (g : Graph), g.Irrefl → (∀ j ∈ js, i ≠ j) →
      (js.foldl (fun g2 j => if coin i j then g2.add_edge_mel (i : Int) (j : Int) else g2) g).Irrefl := by
  intro js
  induction js with
  | nil => intro g h _; simpa using h
  | cons j js ih =>
    intro g h hne
    have hrest : ∀ j2 ∈ js, i ≠ j2 :=
      fun j2 hj2 => hne j2 (List.mem_cons_of_mem j hj2)
    simp only [List.foldl_cons]
    apply ih _ _ hrest
    split
    · apply irrefl_add_edge_mel h
      intro hc
      exact hne j (List.mem_cons_self _ _) (by exact_mod_cast hc)
    · exact h

lemma gen_outer_symm (n : Nat) (coin : Nat → Nat → Bool) :
    ∀ (is : List Nat) (g : Graph), g.Symm →
      (is.foldl (fun g i =>
        (List.range' (i + 1) (n - (i + 1))).foldl
          (fun g2 j => if coin i j then g2.add_edge_mel (i : Int) (j : Int) else g2) g) g).Symm := by
  intro is
  induction is with
  | nil => intro g h; simpa using h
  | cons i is ih =>
    intro g h
    simp only [List.foldl_cons]
    exact ih _ (gen_inner_symm coin i _ g h)

lemma gen_outer_irrefl (n : Nat) (coin : Nat → Nat → Bool) :
    ∀ (is : List Nat) (g : Graph), g.Irrefl →
      (is.foldl (fun g i =>
        (List.range' (i + 1) (n - (i + 1))).foldl
          (fun g2 j => if coin i j then g2.add_edge_mel (i : Int) (j : Int) else g2) g) g).Irrefl := by
  intro is
  induction is with
  | nil => intro g h; simpa using h
  | cons i is ih =>
    intro g h
    simp only [List.foldl_cons]
    apply ih
    apply gen_inner_irrefl coin i _ g h
    intro j hj
    rw [List.mem_range'] at hj
    obtain ⟨k, hk, rfl⟩ := hj
    omega

lemma create_random_graph_symm (n : Nat) (coin : Nat → Nat → Bool) :
    (create_random_graph n coin).Symm := by
  unfold create_random_graph
  exact gen_outer_symm n coin (List.range n) _ (empty_symm _)

lemma create_random_graph_irrefl (n : Nat) (coin : Nat → Nat → Bool) :
    (create_random_graph n coin).Irrefl := by
  unfold create_random_graph
  exact gen_outer_irrefl n coin (List.range n) _ (empty_irrefl _)

/-! Helper lemmas on the best-clique reduction -/

lemma length_offer (a b : List Int) : (offer a b).length = max a.length b.length := by
  unfold offer
  split <;> omega

lemma length_foldl_offer :
    ∀ (trials : List (List Int)) (b : List Int),
      (trials.foldl offer b).length = (trials.map List.length).foldl max b.length := by
  intro trials
  induction trials with
  | nil => intro b; rfl
  | cons t ts ih =>
    intro b
    simp only [List.foldl_cons, List.map_cons]
    rw [ih, length_offer]

lemma le_foldl_max : ∀ (l : List Nat) (b : Nat), b ≤ l.foldl max b := by
  intro l
  induction l with
  | nil => intro b; exact Nat.le_refl b
  | cons x xs ih =>
    intro b
    simp only [List.foldl_cons]
    exact le_trans (Nat.le_max_left b x) (ih (max b x))

lemma mem_le_foldl_max : ∀ (l : List Nat) (b x : Nat), x ∈ l → x ≤ l.foldl max b := by
  intro l
  induction l with
  | nil => intro b x hx; simp at hx
  | cons y ys ih =>
    intro b x hx
    simp only [List.foldl_cons]
    rcases List.mem_cons.mp hx with rfl | hx2
    · exact le_trans (Nat.le_max_right b x) (le_foldl_max ys (max b x))
    · exact ih (max b y) x hx2

lemma foldl_max_attained :
    ∀ (l : List Nat) (b : Nat), l.foldl max b = b ∨ ∃ x ∈ l, l.foldl max b = x := by
  intro l
  induction l with
  | nil => intro b; exact Or.inl rfl
  | cons y ys ih =>
    intro b
    simp only [List.foldl_cons]
    rcases ih (max b y) with h | ⟨x, hx, hfx⟩
    · rcases max_choice b y with hm | hm
      · exact Or.inl (h.trans hm)
      · exact Or.inr ⟨y, List.mem_cons_self _ _, h.trans hm⟩
    · exact Or.inr ⟨x, List.mem_cons_of_mem y hx, hfx⟩

lemma foldl_max_perm {l1 l2 : List Nat} (h : l1.Perm l2) :
    ∀ b, l1.foldl max b = l2.foldl max b := by
  induction h with
  | nil => intro b; rfl
  | cons x _ ih =>
    intro b
    simp only [List.foldl_cons]
    exact ih (max b x)
  | swap x y l =>
    intro b
    simp only [List.foldl_cons]
    have : max (max b y) x = max (max b x) y := by omega
    rw [this]
  | trans _ _ ih1 ih2 =>
    intro b
    rw [ih1 b, ih2 b]

/-! Helper lemmas on the degree ordering -/

lemma sorted_by_degree_perm (g : Graph) :
    (g.get_vertices_sorted_by_degree).Perm
      ((List.range g.num_vertices.toNat).map (fun i : Nat => (i : Int))) := by
  have h2 := (List.perm_insertionSort degKeyLe g.degree_key_list).map Prod.snd
  unfold Graph.get_vertices_sorted_by_degree
  refine h2.trans ?_
  unfold Graph.degree_key_list
  rw [List.map_map]
  have hcomp : Prod.snd ∘ (fun i : Nat => (-(((g.adj (i : Int)).card : Int)), (i : Int))) =
      fun i : Nat => (i : Int) := rfl
  rw [hcomp]

lemma sorted_by_degree_pairwise (g : Graph) :
    (g.get_vertices_sorted_by_degree).Pairwise
      (fun a b => (g.adj b).card < (g.adj a).card ∨
        ((g.adj a).card = (g.adj b).card ∧ a < b)) := by
  unfold Graph.get_vertices_sorted_by_degree
  rw [List.pairwise_map]
  have hsorted : List.Pairwise degKeyLe (List.insertionSort degKeyLe g.degree_key_list) :=
    List.sorted_insertionSort degKeyLe g.degree_key_list
  have hperm := List.perm_insertionSort degKeyLe g.degree_key_list
  have hnodup : ((List.insertionSort degKeyLe g.degree_key_list).map Prod.snd).Nodup := by
    have hbase : (g.degree_key_list.map Prod.snd).Nodup := by
      unfold Graph.degree_key_list
      rw [List.map_map]
      have hinj : Function.Injective
          (Prod.snd ∘ fun i : Nat => (-(((g.adj (i : Int)).card : Int)), (i : Int))) := by
        intro a b h
        simp only [Function.comp_apply] at h
        exact_mod_cast h
      exact List.Nodup.map hinj (List.nodup_range _)
    exact ((hperm.map Prod.snd).nodup_iff).mpr hbase
  have hne : List.Pairwise (fun p q : Int × Int => p.2 ≠ q.2)
      (List.insertionSort degKeyLe g.degree_key_list) := List.pairwise_map.mp hnodup
  have hform : ∀ p ∈ List.insertionSort degKeyLe g.degree_key_list,
      p.1 = -(((g.adj p.2).card : Int)) := by
    intro p hp
    have hp2 : p ∈ g.degree_key_list := hperm.mem_iff.mp hp
    unfold Graph.degree_key_list at hp2
    rw [List.mem_map] at hp2
    obtain ⟨i, _, rfl⟩ := hp2
    rfl
  refine List.Pairwise.imp_of_mem (fun {p q} hp hq hpq => ?_) (hsorted.and hne)
  obtain ⟨hle, hneq⟩ := hpq
  have h1 := hform p hp
  have h2 := hform q hq
  unfold degKeyLe at hle
  rcases hle with h | ⟨heq, hle2⟩
  · left
    omega
  · right
    constructor
    · omega
    · omega

/-- The lines the edge loop sees are lines of the file. -/
lemma mem_of_find_header_rest :
    ∀ (file : List DimacsLine) (l : DimacsLine),
      l ∈ (find_header file).2 → l ∈ file := by
  intro file
  induction file with
  | nil => intro l hl; simp [find_header] at hl
  | cons x rest ih =>
    intro l hl
    cases x with
    | header nv =>
      simp only [find_header] at hl
      exact List.mem_cons_of_mem _ hl
    | com =>
      simp only [find_header] at hl
      exact List.mem_cons_of_mem _ (ih l hl)
    | junk =>
      simp only [find_header] at hl
      exact List.mem_cons_of_mem _ (ih l hl)
    | eline u v =>
      simp only [find_header] at hl
      exact List.mem_cons_of_mem _ (ih l hl)
    | pairline u v =>
      simp only [find_header] at hl
      exact List.mem_cons_of_mem _ (ih l hl)

/-! The claims -/

/-- C1: for every graph satisfying the data model's symmetry invariant and
every ordering whose elements all lie in `[0, N)`, every intermediate clique
built by `find_greedy_max_clique` — the clique reached after scanning any
prefix of the ordering, the final clique included — satisfies pairwise
adjacency: any two distinct members are adjacent. -/
theorem c1_greedy_pairwise_adjacent (g : Graph) (order : List Int)
    (hsym : g.Symm)
    (_hrange : ∀ u ∈ order, 0 ≤ u ∧ u < g.num_vertices) :
    ∀ p t : List Int, order = p ++ t →
      g.PairwiseAdjacent (g.find_greedy_max_clique p) := by
  intro p t _
  exact pairwiseAdjacent_foldl g hsym p [] (pairwiseAdjacent_nil g)

theorem c1_greedy_pairwise_adjacent_witness :
    scenarioA.Symm ∧
    (∀ u ∈ ([2, 0, 1, 3] : List Int), 0 ≤ u ∧ u < scenarioA.num_vertices) ∧
    (∀ p t : List Int, ([2, 0, 1, 3] : List Int) = p ++ t →
      scenarioA.PairwiseAdjacent (scenarioA.find_greedy_max_clique p)) :=
  ⟨buildGraph_symm 4 _, by decide,
    c1_greedy_pairwise_adjacent scenarioA [2, 0, 1, 3] (buildGraph_symm 4 _) (by decide)⟩

/-- C2: the greedy extender is a single left-to-right scan from the empty
clique (extending the ordering by one vertex applies exactly one
`greedy_step`), the returned clique is a sublist of the ordering, and the
result is maximal relative to the ordering: every vertex of the ordering
left out of the returned clique fails adjacency with some member of it. -/
theorem c2_greedy_scan_maximal (g : Graph) (order : List Int)
    (_hrange : ∀ u ∈ order, 0 ≤ u ∧ u < g.num_vertices) :
    (∀ pfx u, g.find_greedy_max_clique (pfx ++ [u]) =
        greedy_step g (g.find_greedy_max_clique pfx) u) ∧
    (g.find_greedy_max_clique order).Sublist order ∧
    (∀ u ∈ order, u ∉ g.find_greedy_max_clique order →
      ∃ v ∈ g.find_greedy_max_clique order, g.is_adjacent u v = false) := by
  refine ⟨?_, ?_, ?_⟩
  · intro pfx u
    unfold Graph.find_greedy_max_clique
    rw [List.foldl_append]
    rfl
  · obtain ⟨t, ht, hsub⟩ := foldl_greedy_step_eq_append g order []
    unfold Graph.find_greedy_max_clique
    rw [ht]
    simpa using hsub
  · intro u hu hnot
    exact greedy_maximal_aux g order [] u hu hnot

theorem c2_greedy_scan_maximal_witness :
    (∀ u ∈ ([2, 0, 1, 3] : List Int), 0 ≤ u ∧ u < scenarioA.num_vertices) ∧
    ((∀ pfx u, scenarioA.find_greedy_max_clique (pfx ++ [u]) =
        greedy_step scenarioA (scenarioA.find_greedy_max_clique pfx) u) ∧
     (scenarioA.find_greedy_max_clique [2, 0, 1, 3]).Sublist [2, 0, 1, 3] ∧
     (∀ u ∈ ([2, 0, 1, 3] : List Int),
        u ∉ scenarioA.find_greedy_max_clique [2, 0, 1, 3] →
        ∃ v ∈ scenarioA.find_greedy_max_clique [2, 0, 1, 3],
          scenarioA.is_adjacent u v = false)) :=
  ⟨by decide, c2_greedy_scan_maximal scenarioA [2, 0, 1, 3] (by decide)⟩

/-- C3: the best-clique holder is monotone (appending further completed
trials never shrinks it), exact (its final size is the maximum of the trial
sizes: it is bounded below by every trial and attained by one of them), and
independent of completion order; the keep-the-larger reduction `offer` is
commutative and associative with respect to the held size. -/
theorem c3_aggregator_monotone_exact (trials rest other : List (List Int))
    (a b c : List Int) (hperm : trials.Perm other) :
    (run_offers trials).length ≤ (run_offers (trials ++ rest)).length ∧
    (run_offers trials).length = (trials.map List.length).foldl max 0 ∧
    (∀ s ∈ trials, s.length ≤ (run_offers trials).length) ∧
    (trials ≠ [] → ∃ s ∈ trials, (run_offers trials).length = s.length) ∧
    (run_offers trials).length = (run_offers other).length ∧
    (offer a b).length = (offer b a).length ∧
    (offer (offer a b) c).length = (offer a (offer b c)).length := by
  have hlen : ∀ ts : List (List Int),
      (run_offers ts).length = (ts.map List.length).foldl max 0 := by
    intro ts
    unfold run_offers
    rw [length_foldl_offer]
    rfl
  refine ⟨?_, hlen trials, ?_, ?_, ?_, ?_, ?_⟩
  · unfold run_offers
    rw [List.foldl_append]
    rw [length_foldl_offer rest (List.foldl offer [] trials)]
    exact le_foldl_max _ _
  · intro s hs
    rw [hlen]
    exact mem_le_foldl_max _ _ _ (List.mem_map_of_mem _ hs)
  · intro hne
    rw [hlen]
    rcases foldl_max_attained (trials.map List.length) 0 with h | hx
    · obtain ⟨s, hs⟩ := List.exists_mem_of_ne_nil trials hne
      refine ⟨s, hs, ?_⟩
      have hle := mem_le_foldl_max (trials.map List.length) 0 s.length
        (List.mem_map_of_mem _ hs)
      omega
    · obtain ⟨x, hx1, hx2⟩ := hx
      rw [List.mem_map] at hx1
      obtain ⟨s, hs, rfl⟩ := hx1
      exact ⟨s, hs, hx2⟩
  · rw [hlen, hlen]
    exact foldl_max_perm (hperm.map List.length) 0
  · rw [length_offer, length_offer]
    omega
  · rw [length_offer, length_offer, length_offer, length_offer]
    omega

theorem c3_aggregator_monotone_exact_witness :
    ([[1], [2, 3]] : List (List Int)).Perm [[2, 3], [1]] ∧
    ((run_offers [[1], [2, 3]]).length ≤
        (run_offers ([[1], [2, 3]] ++ [[4, 5, 6]])).length ∧
     (run_offers [[1], [2, 3]]).length =
        (([[1], [2, 3]] : List (List Int)).map List.length).foldl max 0 ∧
     (∀ s ∈ ([[1], [2, 3]] : List (List Int)),
        s.length ≤ (run_offers [[1], [2, 3]]).length) ∧
     (([[1], [2, 3]] : List (List Int)) ≠ [] →
        ∃ s ∈ ([[1], [2, 3]] : List (List Int)),
          (run_offers [[1], [2, 3]]).length = s.length) ∧
     (run_offers [[1], [2, 3]]).length = (run_offers [[2, 3], [1]]).length ∧
     (offer [1] [2, 3]).length = (offer [2, 3] [1]).length ∧
     (offer (offer [1] [2, 3]) []).length = (offer [1] (offer [2, 3] [])).length) :=
  ⟨by decide,
    c3_aggregator_monotone_exact [[1], [2, 3]] [[4, 5, 6]] [[2, 3], [1]]
      [1] [2, 3] [] (by decide)⟩

/-- C4: a NeighborhoodRestricted trial with an in-range seed on a symmetric
graph returns a clique that contains the seed, whose members other than the
seed all come from `get_neighbors(seed)`, and which — seed included — still
satisfies pairwise adjacency. -/
theorem c4_neighborhood_trial_ok (g : Graph) (s : Int) (order : List Int)
    (hsym : g.Symm) (hs : 0 ≤ s ∧ s < g.num_vertices)
    (horder : order.Perm (g.get_neighbors s)) :
    s ∈ neighborhood_trial g s order ∧
    (∀ v ∈ neighborhood_trial g s order, v ≠ s → v ∈ g.get_neighbors s) ∧
    g.PairwiseAdjacent (neighborhood_trial g s order) := by
  have hloc : ∀ v ∈ g.find_greedy_max_clique order, v ∈ g.get_neighbors s := by
    intro v hv
    obtain ⟨t, ht, hsub⟩ := foldl_greedy_step_eq_append g order []
    have hvo : v ∈ order := by
      unfold Graph.find_greedy_max_clique at hv
      rw [ht] at hv
      simp only [List.nil_append] at hv
      exact List.Sublist.mem hv hsub
    exact horder.mem_iff.mp hvo
  have hmem_adj : ∀ v ∈ g.get_neighbors s, v ∈ g.adj s := by
    intro v hv
    unfold Graph.get_neighbors at hv
    rw [if_neg (by omega)] at hv
    exact (Finset.mem_sort _).mp hv
  have hpw : g.PairwiseAdjacent (g.find_greedy_max_clique order) :=
    pairwiseAdjacent_foldl g hsym order [] (pairwiseAdjacent_nil g)
  refine ⟨List.mem_append_right _ (by simp), ?_, ?_⟩
  · intro v hv hvs
    rcases List.mem_append.mp hv with h | h
    · exact hloc v h
    · exact absurd (by simpa using h) hvs
  · intro u hu v hv hne
    rcases List.mem_append.mp hu with hu1 | hu1 <;>
      rcases List.mem_append.mp hv with hv1 | hv1
    · exact hpw u hu1 v hv1 hne
    · have hv2 : v = s := by simpa using hv1
      have hu3 : u ∈ g.adj s := hmem_adj u (hloc u hu1)
      rw [hv2, hsym u s]
      simpa [Graph.is_adjacent] using hu3
    · have hu2 : u = s := by simpa using hu1
      have hv3 : v ∈ g.adj s := hmem_adj v (hloc v hv1)
      rw [hu2]
      simpa [Graph.is_adjacent] using hv3
    · have hu2 : u = s := by simpa using hu1
      have hv2 : v = s := by simpa using hv1
      exact absurd (hu2.trans hv2.symm) hne

theorem c4_neighborhood_trial_ok_witness :
    scenarioA.Symm ∧ ((0 : Int) ≤ 2 ∧ (2 : Int) < scenarioA.num_vertices) ∧
    (scenarioA.get_neighbors 2).Perm (scenarioA.get_neighbors 2) ∧
    (2 ∈ neighborhood_trial scenarioA 2 (scenarioA.get_neighbors 2) ∧
     (∀ v ∈ neighborhood_trial scenarioA 2 (scenarioA.get_neighbors 2),
        v ≠ 2 → v ∈ scenarioA.get_neighbors 2) ∧
     scenarioA.PairwiseAdjacent
        (neighborhood_trial scenarioA 2 (scenarioA.get_neighbors 2))) :=
  ⟨buildGraph_symm 4 _, by decide, List.Perm.refl _,
    c4_neighborhood_trial_ok scenarioA 2 (scenarioA.get_neighbors 2)
      (buildGraph_symm 4 _) (by decide) (List.Perm.refl _)⟩

/-- C5: `get_vertices_sorted_by_degree` lists all `N` vertices (it is a
permutation of `[0, N)`), in non-increasing degree order with ties broken by
ascending vertex id, and — being a pure function of the graph with no
randomness source — two invocations return identical orderings and identical
greedy cliques. -/
theorem c5_degree_descending_ok (g : Graph) :
    (g.get_vertices_sorted_by_degree).Perm
        ((List.range g.num_vertices.toNat).map (fun i : Nat => (i : Int))) ∧
    (g.get_vertices_sorted_by_degree).Pairwise
        (fun a b => (g.adj b).card < (g.adj a).card ∨
          ((g.adj a).card = (g.adj b).card ∧ a < b)) ∧
    g.get_vertices_sorted_by_degree = g.get_vertices_sorted_by_degree ∧
    g.find_greedy_max_clique g.get_vertices_sorted_by_degree =
      g.find_greedy_max_clique g.get_vertices_sorted_by_degree :=
  ⟨sorted_by_degree_perm g, sorted_by_degree_pairwise g, rfl, rfl⟩

/-- C6: on Scenario A (vertices `{0,1,2,3}`, edges `{0-1, 0-2, 1-2, 2-3}`)
the degree ordering is exactly `[2,0,1,3]` and the greedy scan over it
returns the clique `{0,1,2}` of size 3, built in the order 2, 0, 1 with 3
rejected. -/
theorem c6_scenarioA_ok :
    scenarioA.get_vertices_sorted_by_degree = [2, 0, 1, 3] ∧
    scenarioA.find_greedy_max_clique [2, 0, 1, 3] = [2, 0, 1] ∧
    ([2, 0, 1] : List Int).toFinset = ({0, 1, 2} : Finset Int) ∧
    ([2, 0, 1] : List Int).length = 3 := by
  refine ⟨by decide, by decide, by decide, by decide⟩

/-- C7: contrary to the claim, the accessors silently absorb out-of-range
vertices: on the two-vertex graph, `get_neighbors` of an out-of-range vertex
returns the empty list with no error report, and `add_edge` with an
out-of-range endpoint is a silent no-op that leaves the graph unchanged —
there is no out-of-range condition and no reportable error anywhere. -/
theorem c7_out_of_range_silently_dropped :
    twoPath.get_neighbors (-1) = [] ∧ twoPath.get_neighbors 2 = [] ∧
    twoPath.get_degree (-1) = 0 ∧
    twoPath.add_edge 2 0 = twoPath ∧ twoPath.add_edge (-1) 0 = twoPath := by
  refine ⟨by decide, by decide, by decide, ?_, ?_⟩
  · rw [add_edge_eq_ite, if_neg (by decide)]
  · rw [add_edge_eq_ite, if_neg (by decide)]

/-- C8 counterexample: the loader of
`dataset_taskflow_greedy_weight_neighborhood.cc` (like those of the two
profiling variants) performs no header check at all — on a file with no `p`
line it silently returns the empty 0-vertex graph instead of terminating the
process, so the claim fails for that program variant. -/
theorem c8_wn_loader_ignores_missing_header :
    load_dimacs_graph_wn [DimacsLine.com, DimacsLine.pairline 1 2] =
      Graph.empty 0 := rfl

/-- C8 amended: every variant whose loader validates the parsed vertex count
terminates immediately when the file has no header line (or its header scan
yields a zero vertex count) and produces no graph — the
`dataset_taskflow_greedy.cc` family with a diagnostic on stderr, the
`max_clique_random_neighborhood.cc` family with a bare `exit(1)` that prints
no diagnostic; the `dataset_taskflow_greedy_weight_neighborhood.cc` and the
two profiling variants perform no check at all. -/
theorem c8_header_fatal_in_checked_variants (file : List DimacsLine)
    (h : (∀ l ∈ file, l.isHdr = false) ∨ (find_header file).1 = 0) :
    load_dimacs_graph file = Except.error invalidHeaderMsg ∧
    load_dimacs_graph_rn file = Except.error () := by
  have h0 : (find_header file).1 = 0 := by
    rcases h with h | h
    · rw [find_header_of_no_header file h]
    · exact h
  exact ⟨by simp [load_dimacs_graph, h0], by simp [load_dimacs_graph_rn, h0]⟩

theorem c8_header_fatal_in_checked_variants_witness :
    ((∀ l ∈ [DimacsLine.com, DimacsLine.pairline 1 2], l.isHdr = false) ∨
      (find_header [DimacsLine.com, DimacsLine.pairline 1 2]).1 = 0) ∧
    (load_dimacs_graph [DimacsLine.com, DimacsLine.pairline 1 2] =
        Except.error invalidHeaderMsg ∧
     load_dimacs_graph_rn [DimacsLine.com, DimacsLine.pairline 1 2] =
        Except.error ()) :=
  ⟨Or.inl (by decide),
    c8_header_fatal_in_checked_variants [DimacsLine.com, DimacsLine.pairline 1 2]
      (Or.inl (by decide))⟩

/-- C9 counterexample: the loader does create a self-loop on a file whose
edge line repeats an endpoint — `e 1 1` becomes `add_edge(0, 0)`, after
which vertex 0 is its own neighbour, so irreflexivity does not hold for
every input file. -/
theorem c9_loader_creates_self_loop :
    (load_dimacs_graph_wn
        [DimacsLine.header 2, DimacsLine.eline 1 1]).is_adjacent 0 0 = true := by
  decide

/-- C9 amended: the adjacency relation of every graph built by the
collaborators is symmetric; the random generator (which only joins pairs
`i < j`) never creates a self-loop; and the loaders never create a self-loop
provided no data line carries two equal endpoints after the 1-based
decrement. -/
theorem c9_collaborators_symm_irrefl (n : Nat) (coin : Nat → Nat → Bool)
    (file : List DimacsLine) (hfree : ∀ l ∈ file, selfLoopFree l = true) :
    (create_random_graph n coin).Symm ∧ (create_random_graph n coin).Irrefl ∧
    (load_dimacs_graph_wn file).Symm ∧ (load_dimacs_graph_wn file).Irrefl ∧
    (∀ g2, load_dimacs_graph file = Except.ok g2 → g2.Symm ∧ g2.Irrefl) := by
  have hfree2 : ∀ l ∈ (find_header file).2, selfLoopFree l = true :=
    fun l hl => hfree l (mem_of_find_header_rest file l hl)
  refine ⟨create_random_graph_symm n coin, create_random_graph_irrefl n coin,
    ?_, ?_, ?_⟩
  · unfold load_dimacs_graph_wn
    exact process_edges_symm _ _ (empty_symm _)
  · unfold load_dimacs_graph_wn
    exact process_edges_irrefl _ _ (empty_irrefl _) hfree2
  · intro g2 hok
    unfold load_dimacs_graph at hok
    by_cases h0 : (find_header file).1 = 0
    · simp [h0] at hok
    · simp only [h0, if_false] at hok
      rw [← Except.ok.injEq _ _ |>.mp hok]
      exact ⟨process_edges_symm _ _ (empty_symm _),
        process_edges_irrefl _ _ (empty_irrefl _) hfree2⟩

theorem c9_collaborators_symm_irrefl_witness :
    (∀ l ∈ [DimacsLine.header 2, DimacsLine.eline 1 2], selfLoopFree l = true) ∧
    ((create_random_graph 2 (fun _ _ => true)).Symm ∧
     (create_random_graph 2 (fun _ _ => true)).Irrefl ∧
     (load_dimacs_graph_wn [DimacsLine.header 2, DimacsLine.eline 1 2]).Symm ∧
     (load_dimacs_graph_wn [DimacsLine.header 2, DimacsLine.eline 1 2]).Irrefl ∧
     (∀ g2, load_dimacs_graph [DimacsLine.header 2, DimacsLine.eline 1 2] =
        Except.ok g2 → g2.Symm ∧ g2.Irrefl)) :=
  ⟨by decide,
    c9_collaborators_symm_irrefl 2 (fun _ _ => true)
      [DimacsLine.header 2, DimacsLine.eline 1 2] (by decide)⟩

/-- C10: the accessors are total on out-of-range arguments: for any vertex
outside `[0, N)`, `get_neighbors` returns the empty list, `get_degree`
returns 0, and `add_edge` with that vertex as either endpoint leaves the
graph completely unchanged; none of them aborts. -/
theorem c10_accessors_total_out_of_range (g : Graph) (u v : Int)
    (hu : u < 0 ∨ g.num_vertices ≤ u) :
    g.get_neighbors u = [] ∧ g.get_degree u = 0 ∧
    g.add_edge u v = g ∧ g.add_edge v u = g := by
  refine ⟨?_, ?_, ?_, ?_⟩
  · unfold Graph.get_neighbors
    rw [if_pos hu]
  · unfold Graph.get_degree
    rw [if_neg (by omega)]
  · rw [add_edge_eq_ite, if_neg (by omega)]
  · rw [add_edge_eq_ite, if_neg (by omega)]

theorem c10_accessors_total_out_of_range_witness :
    ((5 : Int) < 0 ∨ twoPath.num_vertices ≤ 5) ∧
    (twoPath.get_neighbors 5 = [] ∧ twoPath.get_degree 5 = 0 ∧
     twoPath.add_edge 5 0 = twoPath ∧ twoPath.add_edge 0 5 = twoPath) :=
  ⟨by decide, c10_accessors_total_out_of_range twoPath 5 0 (by decide)⟩
